import Mathlib

/-!
# Shallow embedding of the `auction` Go package

Source files: `auction.go`, `bidder.go`, the in-memory store file, and
`auction_test.go` of `github.com/leandrorichard/auction`.

Modelling conventions:
* `float64` bid amounts are modelled as exact rationals (`ℚ`); the spec's
  arithmetic is simple decimal arithmetic, never exercising float rounding.
* `uuid.UUID` is modelled as `Nat` (an opaque identifier with decidable
  equality is all the code uses).
* `time.Time` is modelled as a `Nat` tick; the zero value is `0`, and
  `t.Before u` is `t < u`.  `time.Now()` is an injected `now : Nat` argument.
* Go errors are modelled by `GoErr`: `GoErr.new` is `errors.New` /
  `fmt.Errorf` without `%w`, and `GoErr.wrap` is `fmt.Errorf("...: %w", err)`.
  The dynamic `$%.2f` amounts interpolated into messages are elided (they are
  presentation only); each construction site keeps its distinct static text,
  which preserves Go's distinct-error-identity semantics for this code.
* The Go map `map[uuid.UUID]*bidder` is modelled as an association list keyed
  by the `ID` field.  Claims about `DetermineWinner` are stated over an
  arbitrary snapshot list, since Go's map iteration order is unspecified.
-/

/-- Go error values as this package builds them: `new` is `errors.New` or a
`%w`-free `fmt.Errorf`, `wrap` is `fmt.Errorf("msg: %w", inner)`. -/
inductive GoErr where
  | new (msg : String)
  | wrap (msg : String) (inner : GoErr)
deriving Repr, DecidableEq, BEq

/-- Go's `errors.Is`: the target matches the error itself or anything in its
unwrap chain.  (Identity of `errors.New` values is modelled by structural
equality, faithful here because every construction site uses distinct text.) -/
def errorsIs : GoErr → GoErr → Bool
  | .new m, target => GoErr.new m == target
  | .wrap m inner, target => (GoErr.wrap m inner == target) || errorsIs inner target

/-- `bidder.go`: `var ErrExceededMaxBid = errors.New("exceeded maximum bid")`. -/
def ErrExceededMaxBid : GoErr := .new "exceeded maximum bid"

/-- `bidder.go`: the (unexported) `bidder` struct. -/
structure Bidder where
  ID : Nat
  Name : String
  StartingBid : ℚ
  MaxBid : ℚ
  CurrentBid : ℚ
  AutoIncrement : ℚ
  LastBidTime : Nat
deriving Repr, DecidableEq

/-- `bidder.go`: the `NewBidder` configuration struct (same fields). -/
structure NewBidder where
  ID : Nat
  Name : String
  StartingBid : ℚ
  MaxBid : ℚ
  CurrentBid : ℚ
  AutoIncrement : ℚ
  LastBidTime : Nat
deriving Repr, DecidableEq

/-- `bidder.go` `toNewBidder`: field-by-field conversion of a `NewBidder`
configuration into a stored `bidder` record. -/
def toNewBidder (bdr : NewBidder) : Bidder :=
  { ID := bdr.ID
    Name := bdr.Name
    StartingBid := bdr.StartingBid
    MaxBid := bdr.MaxBid
    CurrentBid := bdr.CurrentBid
    AutoIncrement := bdr.AutoIncrement
    LastBidTime := bdr.LastBidTime }

/-- `bidder.go` `toNewBidders`: the Go loop appends `toNewBidder bdr` for each
configuration in order, i.e. a map. -/
def toNewBidders (bidders : List NewBidder) : List Bidder :=
  bidders.map toNewBidder

/-- The in-memory store: Go's `map[uuid.UUID]*bidder` as an association list
keyed by the `ID` field (the public API keeps the keys unique). -/
structure InMemoryStore where
  bidders : List Bidder
deriving Repr, DecidableEq

/-- `NewInMemoryStore`: an empty store. -/
def NewInMemoryStore : InMemoryStore := ⟨[]⟩

/-- `AddBidder`: fails if the identifier already exists, otherwise inserts. -/
def InMemoryStore.AddBidder (store : InMemoryStore) (b : Bidder) :
    Except GoErr InMemoryStore :=
  if store.bidders.any (fun x => x.ID == b.ID) then
    .error (.new "bidder already exists")
  else
    .ok ⟨store.bidders ++ [b]⟩

/-- `GetBidder`: returns a copy of the record, or `bidder not found`. -/
def InMemoryStore.GetBidder (store : InMemoryStore) (id : Nat) :
    Except GoErr Bidder :=
  match store.bidders.find? (fun x => x.ID == id) with
  | some b => .ok b
  | none => .error (.new "bidder not found")

/-- The effect of Go's `store.bidders[bidder.ID] = bidder`: overwrite the
entry with that key if present, otherwise insert it. -/
def setBidder (store : InMemoryStore) (b : Bidder) : InMemoryStore :=
  if store.bidders.any (fun x => x.ID == b.ID) then
    ⟨store.bidders.map (fun x => if x.ID == b.ID then b else x)⟩
  else
    ⟨store.bidders ++ [b]⟩

/-- `UpdateBidder`: unconditional map assignment; always returns `nil`. -/
def InMemoryStore.UpdateBidder (store : InMemoryStore) (b : Bidder) :
    Except GoErr InMemoryStore :=
  .ok (setBidder store b)

/-- `ListBidders`: a snapshot of all records; always succeeds. -/
def InMemoryStore.ListBidders (store : InMemoryStore) :
    Except GoErr (List Bidder) :=
  .ok store.bidders

/-- `auction.go`: the `Auction` struct (storer plus identifier). -/
structure Auction where
  storer : InMemoryStore
  ID : Nat
deriving Repr, DecidableEq

/-- `auction.go`: `NewAuctionConfig`. -/
structure NewAuctionConfig where
  Bidders : List NewBidder
deriving Repr, DecidableEq

/-- `validateBidder`: the three individual-bidder checks, in source order.
`none` models a `nil` error. -/
def validateBidder (b : NewBidder) : Option GoErr :=
  if b.StartingBid ≤ 0 then
    some (.new "starting bid must be positive")
  else if b.MaxBid < b.StartingBid then
    some (.new "max bid must be greater than or equal to starting bid")
  else if b.AutoIncrement ≤ 0 then
    some (.new "auto-increment must be positive")
  else
    none

/-- The loop body of `validateAuctionData`: walk the configurations in order,
carrying the set of already-seen identifiers; report the first duplicate or
the first invalid bidder (duplicate check first at each position). -/
def validateLoop (bs : List NewBidder) (seenIDs : List Nat) : Option GoErr :=
  match bs with
  | [] => none
  | b :: rest =>
    if seenIDs.contains b.ID then
      some (.new "duplicate bidder ID detected")
    else
      match validateBidder b with
      | some e => some (.wrap "invalid bidder data for bidder ID" e)
      | none => validateLoop rest (b.ID :: seenIDs)

/-- `validateAuctionData`: at least two bidders, then the per-bidder loop. -/
def validateAuctionData (na : NewAuctionConfig) : Option GoErr :=
  if na.Bidders.length ≤ 1 then
    some (.new "auction must have at least two bidders")
  else
    validateLoop na.Bidders []

/-- The `NewAuction` seeding loop: add each converted bidder to the store,
stopping at (and wrapping) the first `AddBidder` error. -/
def addAll (store : InMemoryStore) (bs : List Bidder) :
    Except GoErr InMemoryStore :=
  match bs with
  | [] => .ok store
  | b :: rest =>
    match store.AddBidder b with
    | .error e => .error (.wrap "failed to add bidder" e)
    | .ok s => addAll s rest

/-- `NewAuction`: validate, seed a fresh store, assign a fresh identifier
(injected as `freshID`, standing for `uuid.New()`).  On any error no auction
(hence no store) is returned. -/
def NewAuction (na : NewAuctionConfig) (freshID : Nat) : Except GoErr Auction :=
  match validateAuctionData na with
  | some e => .error (.wrap "invalid auction data" e)
  | none =>
    match addAll NewInMemoryStore (toNewBidders na.Bidders) with
    | .error e => .error e
    | .ok store => .ok ⟨store, freshID⟩

/-- `PlaceBid`: read a copy of the bidder, compute
`bidAmount = CurrentBid + AutoIncrement`, run the three checks in source
order, and only on success write the updated copy back.  The Go method
mutates the auction's store through a pointer; here the second component is
the auction after the call (each early `return err` leaves it untouched,
exactly as the Go code performs no store write on those paths). -/
def Auction.PlaceBid (a : Auction) (id : Nat) (now : Nat) :
    Option GoErr × Auction :=
  match a.storer.GetBidder id with
  | .error e => (some (.wrap "failed to get bidder" e), a)
  | .ok bidder =>
    let bidAmount := bidder.CurrentBid + bidder.AutoIncrement
    if bidAmount < bidder.StartingBid then
      (some (.new "bid amount is less than starting bid"), a)
    else if bidAmount > bidder.MaxBid then
      (some (.wrap "bid amount is greater than max bid" ErrExceededMaxBid), a)
    else if bidAmount ≤ bidder.CurrentBid then
      (some (.new "bid amount is less than or equal to current bid"), a)
    else
      match a.storer.UpdateBidder
          { bidder with CurrentBid := bidAmount, LastBidTime := now } with
      | .error e => (some (.wrap "failed to update bidder" e), a)
      | .ok store => (none, { a with storer := store })

/-- `auction.go`: the `Winner` projection. -/
structure Winner where
  ID : Nat
  Name : String
deriving Repr, DecidableEq

/-- `isWinner`: replace the running winner if there is none yet (empty name),
or the candidate's bid is lower, or equal with an earlier last-bid time. -/
def isWinner (currentWinner bidder : Bidder) : Bool :=
  currentWinner.Name == "" ||
  decide (bidder.CurrentBid < currentWinner.CurrentBid) ||
  (decide (bidder.CurrentBid = currentWinner.CurrentBid) &&
    decide (bidder.LastBidTime < currentWinner.LastBidTime))

/-- Go's `var wbdr bidder` zero value. -/
def zeroBidder : Bidder :=
  { ID := 0, Name := "", StartingBid := 0, MaxBid := 0, CurrentBid := 0
    AutoIncrement := 0, LastBidTime := 0 }

/-- The body of the `DetermineWinner` loop: keep or replace the running winner. -/
def winnerStep (wbdr bidder : Bidder) : Bidder :=
  if isWinner wbdr bidder then bidder else wbdr

/-- The reduction loop of `DetermineWinner` over a snapshot. -/
def winnerLoop (bdrs : List Bidder) : Bidder :=
  bdrs.foldl winnerStep zeroBidder

/-- The strict comparison `isWinner` implements once a running winner exists:
lower current bid, or equal bid and strictly earlier last-bid time. -/
def lexLt (b w : Bidder) : Prop :=
  b.CurrentBid < w.CurrentBid ∨
    (b.CurrentBid = w.CurrentBid ∧ b.LastBidTime < w.LastBidTime)

/-- The body of `DetermineWinner` after `ListBidders` succeeds: run the
reduction, fail with `no winner` if the result still has an empty name. -/
def determineWinnerFrom (bdrs : List Bidder) : Except GoErr Winner :=
  let wbdr := winnerLoop bdrs
  if wbdr.Name == "" then
    .error (.new "no winner")
  else
    .ok ⟨wbdr.ID, wbdr.Name⟩

/-- `DetermineWinner`: list the snapshot and reduce. -/
def Auction.DetermineWinner (a : Auction) : Except GoErr Winner :=
  match a.storer.ListBidders with
  | .error e => .error (.wrap "failed to list bidders" e)
  | .ok bdrs => determineWinnerFrom bdrs

/-- Run a sequence of `PlaceBid` requests (`(bidder id, now)` pairs) against
an auction, keeping the state across failed calls exactly as Go callers do. -/
def runBids (a : Auction) (reqs : List (Nat × Nat)) : Auction :=
  reqs.foldl (fun acc r => (acc.PlaceBid r.1 r.2).2) a

/-- States reachable from a given construction through any sequence of
`PlaceBid` calls (failed calls leave the state unchanged, so including every
call outcome is harmless and faithful). -/
inductive ReachableFrom (na : NewAuctionConfig) (freshID : Nat) : Auction → Prop where
  | init (a : Auction) : NewAuction na freshID = .ok a → ReachableFrom na freshID a
  | bid (a : Auction) (id now : Nat) : ReachableFrom na freshID a →
      ReachableFrom na freshID (a.PlaceBid id now).2

/-- The stored record under a given identifier (the Go map lookup backing
`GetBidder` and `UpdateBidder`). -/
def entryOf (store : InMemoryStore) (id : Nat) : Option Bidder :=
  store.bidders.find? (fun x => x.ID == id)

/-- The effect of one whole sequential `PlaceBid` call on that bidder's own
store entry: validate the incremented amount against the copy and write it
back only when all three checks pass. -/
def entryBid (e : Option Bidder) (now : Nat) : Option Bidder :=
  match e with
  | none => none
  | some b =>
    let bidAmount := b.CurrentBid + b.AutoIncrement
    if bidAmount < b.StartingBid then some b
    else if bidAmount > b.MaxBid then some b
    else if bidAmount ≤ b.CurrentBid then some b
    else some { b with CurrentBid := bidAmount, LastBidTime := now }

/-! ### Fine-grained concurrency model

The store's `RWMutex` makes each store operation atomic, but a `PlaceBid`
call touches the store twice: the `GetBidder` read (under `RLock`) and the
`UpdateBidder` write (under `Lock`).  The validation in between uses only
the thread's local copy.  A concurrent execution of auto-bidding goroutines
(as in `TestConcurrencyInAuction`, one goroutine per bidder) is therefore an
arbitrary interleaving of these per-thread atomic store operations. -/

/-- One auto-bidding thread: the bidder it bids on, the `now` timestamps of
its remaining `PlaceBid` calls, and — between the `GetBidder` read and the
write-back of one call — the copy (and timestamp) it holds. -/
structure ThreadState where
  bidderID : Nat
  pending : List Nat
  holding : Option (Bidder × Nat)
deriving Repr, DecidableEq

/-- A concurrent configuration: the shared store plus `n` threads. -/
structure Conc (n : Nat) where
  store : InMemoryStore
  threads : Fin n → ThreadState

/-- One atomic step of a thread against the shared store: either complete
the in-flight call (validate the held copy, write back only on success), or
start the next pending call with a `GetBidder` read. -/
def threadStep (store : InMemoryStore) (t : ThreadState) :
    InMemoryStore × ThreadState :=
  match t.holding with
  | some (b, now) =>
    let bidAmount := b.CurrentBid + b.AutoIncrement
    if bidAmount < b.StartingBid then
      (store, { t with holding := none })
    else if bidAmount > b.MaxBid then
      (store, { t with holding := none })
    else if bidAmount ≤ b.CurrentBid then
      (store, { t with holding := none })
    else
      (setBidder store { b with CurrentBid := bidAmount, LastBidTime := now },
        { t with holding := none })
  | none =>
    match t.pending with
    | [] => (store, t)
    | now :: rest =>
      match store.GetBidder t.bidderID with
      | .error _ => (store, { t with pending := rest })
      | .ok b => (store, { t with pending := rest, holding := some (b, now) })

/-- Run one scheduled thread (an out-of-range schedule entry cannot occur:
indices are `Fin n`). -/
def concStep {n : Nat} (c : Conc n) (j : Fin n) : Conc n :=
  ⟨(threadStep c.store (c.threads j)).1,
    Function.update c.threads j (threadStep c.store (c.threads j)).2⟩

/-- Run a schedule (a list of thread indices) left to right. -/
def concRun {n : Nat} (c : Conc n) (sched : List (Fin n)) : Conc n :=
  sched.foldl concStep c

/-- The projection of `threadStep` onto a thread's local view: its own store
entry plus its thread state.  A thread only ever reads and writes its own
entry, so its steps act on this view alone. -/
def localStep (p : Option Bidder × ThreadState) : Option Bidder × ThreadState :=
  match p.2.holding with
  | some (b, now) =>
    let bidAmount := b.CurrentBid + b.AutoIncrement
    if bidAmount < b.StartingBid then (p.1, { p.2 with holding := none })
    else if bidAmount > b.MaxBid then (p.1, { p.2 with holding := none })
    else if bidAmount ≤ b.CurrentBid then (p.1, { p.2 with holding := none })
    else (some { b with CurrentBid := bidAmount, LastBidTime := now },
      { p.2 with holding := none })
  | none =>
    match p.2.pending with
    | [] => p
    | now :: rest =>
      match p.1 with
      | none => (p.1, { p.2 with pending := rest })
      | some b => (p.1, { p.2 with pending := rest, holding := some (b, now) })

/-! ### Concrete instances used by counterexamples and witnesses -/

/-- An auction whose store is empty (used to exercise the not-found path). -/
def C10a : Auction := ⟨⟨[]⟩, 0⟩

/-- A one-record store. -/
def C8s : InMemoryStore := ⟨[⟨5, "X", 1, 2, 1, 1, 0⟩]⟩

/-- A record whose identifier is absent from `C8s`. -/
def C8b : Bidder := ⟨1, "Y", 1, 3, 1, 1, 4⟩

/-- A bidder one increment past its ceiling: `2 + 1 > 2`. -/
def C2b : Bidder := ⟨1, "A", 1, 2, 2, 1, 0⟩

/-- An auction holding exactly `C2b`. -/
def C2a : Auction := ⟨⟨[C2b]⟩, 0⟩

/-- An auction holding one bidder in the exceeded state (for the error
taxonomy witness). -/
def C3a : Auction := ⟨⟨[⟨1, "A", 1, 2, 2, 1, 0⟩]⟩, 0⟩

/-- A configuration that passes `validateAuctionData` although its first
bidder's `CurrentBid` (100) already exceeds its `MaxBid` (20): validation
never looks at `CurrentBid`. -/
def C4cfg : NewAuctionConfig :=
  ⟨[⟨1, "A", 10, 20, 100, 1, 0⟩, ⟨2, "B", 10, 20, 10, 1, 0⟩]⟩

/-- The auction `NewAuction C4cfg 0` builds. -/
def C4auction : Auction :=
  ⟨⟨[⟨1, "A", 10, 20, 100, 1, 0⟩, ⟨2, "B", 10, 20, 10, 1, 0⟩]⟩, 0⟩

/-- A well-seeded configuration (every `CurrentBid ≤ MaxBid`). -/
def C4Wcfg : NewAuctionConfig :=
  ⟨[⟨1, "A", 1, 2, 1, 1, 0⟩, ⟨2, "B", 1, 2, 1, 1, 0⟩]⟩

/-- A valid configuration with caller-chosen `CurrentBid` and `LastBidTime`. -/
def C6cfg : NewAuctionConfig :=
  ⟨[⟨1, "A", 1, 2, 1, 1, 5⟩, ⟨2, "B", 1, 3, 2, 1, 6⟩]⟩

/-- The auction `NewAuction C6cfg 9` builds. -/
def C6auction : Auction := ⟨⟨toNewBidders C6cfg.Bidders⟩, 9⟩

/-- A snapshot with an empty-named bidder between two named ones: the
empty-name sentinel check resets the running minimum mid-scan. -/
def C1list : List Bidder :=
  [⟨1, "A", 1, 20, 5, 1, 0⟩, ⟨2, "", 1, 20, 1, 1, 0⟩, ⟨3, "B", 1, 20, 10, 1, 0⟩]

/-- A snapshot where a named bidder is followed by a lower-bidding unnamed
one, so the scan ends on the unnamed record. -/
def C7list : List Bidder := [⟨1, "A", 1, 10, 5, 1, 0⟩, ⟨2, "", 1, 10, 1, 1, 0⟩]

/-- A configuration whose first bidder is individually invalid (non-positive
starting bid) while the second and third share an identifier. -/
def C5cfg : NewAuctionConfig :=
  ⟨[⟨1, "X", 0, 0, 0, 1, 0⟩, ⟨2, "Y", 1, 1, 1, 1, 0⟩, ⟨2, "Z", 1, 1, 1, 1, 0⟩]⟩

/-- A configuration with a valid first bidder and a repeated identifier. -/
def C5Wcfg : NewAuctionConfig :=
  ⟨[⟨1, "X", 1, 2, 1, 1, 0⟩, ⟨1, "Z", 1, 2, 1, 1, 0⟩, ⟨2, "Y", 1, 2, 1, 1, 0⟩]⟩

/-- Two threads bidding on distinct identifiers. -/
def C9threads : Fin 2 → ThreadState :=
  fun i => if i = 0 then ⟨1, [5], none⟩ else ⟨2, [6], none⟩

/-- A two-thread configuration over an empty store. -/
def C9conc : Conc 2 := ⟨⟨[]⟩, C9threads⟩

/-- An interleaved schedule of the two threads. -/
def C9sched : List (Fin 2) := [0, 1]

/-! ## Store lemmas -/

theorem find?_eq_none_of_any_eq_false {l : List Bidder} {p : Bidder → Bool}
    (h : l.any p = false) : l.find? p = none := by
  induction l with
  | nil => rfl
  | cons x xs ih =>
      simp only [List.any_cons, Bool.or_eq_false_iff] at h
      rw [List.find?_cons, h.1]
      exact ih h.2

theorem find?_replace_same {l : List Bidder} {b : Bidder}
    (h : l.any (fun x => x.ID == b.ID) = true) :
    (l.map (fun x => if x.ID == b.ID then b else x)).find? (fun x => x.ID == b.ID) =
      some b := by
  induction l with
  | nil => simp at h
  | cons x xs ih =>
      simp only [List.any_cons, Bool.or_eq_true] at h
      by_cases hx : (x.ID == b.ID) = true
      · simp only [List.map_cons, if_pos hx]
        rw [List.find?_cons]
        simp
      · simp only [List.map_cons, if_neg hx]
        rw [List.find?_cons]
        have hx' : (x.ID == b.ID) = false := by
          simpa using hx
        rw [hx']
        exact ih (h.resolve_left hx)

theorem find?_replace_ne {l : List Bidder} {b : Bidder} {id : Nat}
    (hne : id ≠ b.ID) :
    (l.map (fun x => if x.ID == b.ID then b else x)).find? (fun x => x.ID == id) =
      l.find? (fun x => x.ID == id) := by
  induction l with
  | nil => rfl
  | cons x xs ih =>
      by_cases hx : (x.ID == b.ID) = true
      · have hxid : x.ID = b.ID := by simpa using hx
        have h1 : (b.ID == id) = false := by
          simp [BEq.symm_false]
          exact fun h => hne h.symm
        have h2 : (x.ID == id) = false := by
          rw [hxid]; exact h1
        simp only [List.map_cons, if_pos hx]
        rw [List.find?_cons, List.find?_cons, h1, h2]
        exact ih
      · simp only [List.map_cons, if_neg hx]
        rw [List.find?_cons, List.find?_cons]
        cases hxi : (x.ID == id) with
        | true => rfl
        | false => exact ih

/-- The stored record under a given identifier (the Go map lookup). -/
theorem getBidder_mem {s : InMemoryStore} {id : Nat} {b : Bidder}
    (h : s.GetBidder id = .ok b) : b ∈ s.bidders ∧ b.ID = id := by
  unfold InMemoryStore.GetBidder at h
  cases hf : s.bidders.find? (fun x => x.ID == id) with
  | none => rw [hf] at h; cases h
  | some b' =>
      rw [hf] at h
      cases h
      refine ⟨List.mem_of_find?_eq_some hf, ?_⟩
      have := List.find?_some hf
      simpa using this

theorem entry_setBidder_same (s : InMemoryStore) (b : Bidder) :
    (setBidder s b).bidders.find? (fun x => x.ID == b.ID) = some b := by
  unfold setBidder
  split
  · next h => exact find?_replace_same h
  · next h =>
      show (s.bidders ++ [b]).find? (fun x => x.ID == b.ID) = some b
      rw [List.find?_append, find?_eq_none_of_any_eq_false (by simpa using h)]
      simp [List.find?_cons]

theorem entry_setBidder_ne (s : InMemoryStore) (b : Bidder) (id : Nat)
    (hne : id ≠ b.ID) :
    (setBidder s b).bidders.find? (fun x => x.ID == id) =
      s.bidders.find? (fun x => x.ID == id) := by
  unfold setBidder
  split
  · next h => exact find?_replace_ne hne
  · next h =>
      show (s.bidders ++ [b]).find? (fun x => x.ID == id) =
        s.bidders.find? (fun x => x.ID == id)
      rw [List.find?_append]
      have hb : ([b].find? (fun x => x.ID == id)) = none := by
        have hbid : (b.ID == id) = false := by
          simp
          exact fun h => hne h.symm
        simp [List.find?_cons, hbid]
      rw [hb]
      cases s.bidders.find? (fun x => x.ID == id) <;> rfl

theorem getBidder_setBidder_same (s : InMemoryStore) (b : Bidder) :
    (setBidder s b).GetBidder b.ID = .ok b := by
  unfold InMemoryStore.GetBidder
  rw [entry_setBidder_same]

theorem getBidder_setBidder_ne (s : InMemoryStore) (b : Bidder) (id : Nat)
    (hne : id ≠ b.ID) : (setBidder s b).GetBidder id = s.GetBidder id := by
  unfold InMemoryStore.GetBidder
  rw [entry_setBidder_ne s b id hne]

theorem mem_setBidder {s : InMemoryStore} {b x : Bidder}
    (h : x ∈ (setBidder s b).bidders) : x = b ∨ x ∈ s.bidders := by
  unfold setBidder at h
  split at h
  · obtain ⟨y, hy, hyx⟩ := List.mem_map.mp h
    by_cases hyb : (y.ID == b.ID) = true
    · rw [if_pos hyb] at hyx; exact .inl hyx.symm
    · rw [if_neg hyb] at hyx; exact .inr (hyx ▸ hy)
  · rcases List.mem_append.mp h with h' | h'
    · exact .inr h'
    · simp at h'; exact .inl h'

theorem addAll_ok {bs : List Bidder} {s s' : InMemoryStore}
    (h : addAll s bs = .ok s') : s'.bidders = s.bidders ++ bs := by
  induction bs generalizing s with
  | nil => cases h; simp
  | cons b rest ih =>
      unfold addAll at h
      split at h
      · cases h
      · next s2 heq =>
          rw [ih h]
          unfold InMemoryStore.AddBidder at heq
          split at heq
          · cases heq
          · cases heq
            rw [List.append_assoc]
            rfl

/-! ## PlaceBid case analysis -/

/-- Every `PlaceBid` call either fails and leaves the auction untouched, or
passes all three checks and writes back exactly the incremented copy. -/
theorem placeBid_cases (a : Auction) (id now : Nat) :
    ((∃ e, (a.PlaceBid id now).1 = some e) ∧ (a.PlaceBid id now).2 = a) ∨
    (∃ b, a.storer.GetBidder id = .ok b ∧
      ¬(b.CurrentBid + b.AutoIncrement < b.StartingBid) ∧
      ¬(b.CurrentBid + b.AutoIncrement > b.MaxBid) ∧
      ¬(b.CurrentBid + b.AutoIncrement ≤ b.CurrentBid) ∧
      a.PlaceBid id now =
        (none, { a with
                  storer := setBidder a.storer { b with
                              CurrentBid := b.CurrentBid + b.AutoIncrement
                              LastBidTime := now } })) := by
  unfold Auction.PlaceBid
  cases hget : a.storer.GetBidder id with
  | error e => exact .inl ⟨⟨_, rfl⟩, rfl⟩
  | ok b =>
      by_cases h1 : b.CurrentBid + b.AutoIncrement < b.StartingBid
      · simp only [if_pos h1]
        exact .inl ⟨⟨_, rfl⟩, trivial⟩
      · simp only [if_neg h1]
        by_cases h2 : b.CurrentBid + b.AutoIncrement > b.MaxBid
        · simp only [if_pos h2]
          exact .inl ⟨⟨_, rfl⟩, trivial⟩
        · simp only [if_neg h2]
          by_cases h3 : b.CurrentBid + b.AutoIncrement ≤ b.CurrentBid
          · simp only [if_pos h3]
            exact .inl ⟨⟨_, rfl⟩, trivial⟩
          · simp only [if_neg h3]
            exact .inr ⟨b, rfl, h1, h2, h3, rfl⟩

/-- A failed `PlaceBid` performs no store write at all. -/
theorem placeBid_error_frame {a : Auction} {id now : Nat} {e : GoErr}
    (h : (a.PlaceBid id now).1 = some e) : (a.PlaceBid id now).2 = a := by
  rcases placeBid_cases a id now with ⟨_, h2⟩ | ⟨b, _, _, _, _, heq⟩
  · exact h2
  · rw [heq] at h
    cases h

/-- In the terminal state (`startingBid ≤ maxBid` and the next amount above
`maxBid`), `PlaceBid` fails with the `ErrExceededMaxBid` wrap and writes
nothing. -/
theorem placeBid_exceeded {a : Auction} {id : Nat} {b : Bidder}
    (hget : a.storer.GetBidder id = .ok b)
    (hsm : b.StartingBid ≤ b.MaxBid)
    (hex : b.MaxBid < b.CurrentBid + b.AutoIncrement) (now : Nat) :
    a.PlaceBid id now =
      (some (.wrap "bid amount is greater than max bid" ErrExceededMaxBid), a) := by
  unfold Auction.PlaceBid
  rw [hget]
  have h1 : ¬(b.CurrentBid + b.AutoIncrement < b.StartingBid) := by
    intro hlt
    linarith
  simp only [if_neg h1, if_pos hex]

/-- Any `PlaceBid` call leaves a bidder sitting in the terminal state
untouched: its own call fails before writing, and a call on a different
identifier writes only that other record. -/
theorem placeBid_exceeded_stable {a : Auction} {id : Nat} {b : Bidder}
    (hget : a.storer.GetBidder id = .ok b)
    (_hsm : b.StartingBid ≤ b.MaxBid)
    (hex : b.MaxBid < b.CurrentBid + b.AutoIncrement) (id' now' : Nat) :
    ((a.PlaceBid id' now').2).storer.GetBidder id = .ok b := by
  rcases placeBid_cases a id' now' with ⟨_, h2⟩ | ⟨b', hget', h1, h2, h3, heq⟩
  · rw [h2]; exact hget
  · by_cases hid : id' = id
    · subst hid
      rw [hget] at hget'
      cases hget'
      exact absurd hex h2
    · rw [heq]
      have hbid' : b'.ID = id' := (getBidder_mem hget').2
      have hne : id ≠ b'.ID := by
        rw [hbid']
        exact fun h => hid h.symm
      have hne2 : id ≠ ({ b' with
          CurrentBid := b'.CurrentBid + b'.AutoIncrement
          LastBidTime := now' } : Bidder).ID := hne
      exact (getBidder_setBidder_ne _ _ _ hne2).trans hget

/-- The terminal state persists across any further request sequence. -/
theorem runBids_exceeded_stable {a : Auction} {id : Nat} {b : Bidder}
    (hget : a.storer.GetBidder id = .ok b)
    (hsm : b.StartingBid ≤ b.MaxBid)
    (hex : b.MaxBid < b.CurrentBid + b.AutoIncrement) (reqs : List (Nat × Nat)) :
    (runBids a reqs).storer.GetBidder id = .ok b := by
  induction reqs generalizing a with
  | nil => exact hget
  | cons r rest ih =>
      show (runBids ((a.PlaceBid r.1 r.2).2) rest).storer.GetBidder id = .ok b
      exact ih (placeBid_exceeded_stable hget hsm hex r.1 r.2)

/-! ## Winner comparator lemmas -/

theorem lexLt_irrefl (b : Bidder) : ¬ lexLt b b := by
  unfold lexLt
  rintro (h | ⟨-, h⟩)
  · exact lt_irrefl _ h
  · omega

theorem lexLt_trans {a b c : Bidder} (h1 : lexLt a b) (h2 : lexLt b c) :
    lexLt a c := by
  unfold lexLt at *
  rcases h1 with h1 | ⟨h1, h1t⟩ <;> rcases h2 with h2 | ⟨h2, h2t⟩
  · exact .inl (lt_trans h1 h2)
  · exact .inl (h2 ▸ h1)
  · exact .inl (h1 ▸ h2)
  · exact .inr ⟨h1.trans h2, by omega⟩

theorem lexLt_of_not_of {acc c r : Bidder} (h1 : ¬ lexLt c acc)
    (h2 : lexLt c r) : lexLt acc r := by
  unfold lexLt at *
  push_neg at h1
  obtain ⟨hble, hteq⟩ := h1
  rcases h2 with h2 | ⟨h2, h2t⟩
  · exact .inl (lt_of_le_of_lt hble h2)
  · rcases lt_or_eq_of_le hble with hlt | heq
    · exact .inl (h2 ▸ hlt)
    · refine .inr ⟨heq.trans h2, ?_⟩
      have := hteq heq.symm
      omega

theorem isWinner_eq_lexLt {acc : Bidder} (c : Bidder) (h : acc.Name ≠ "") :
    isWinner acc c = true ↔ lexLt c acc := by
  unfold isWinner lexLt
  have hname : (acc.Name == "") = false := by
    simpa using h
  simp [hname]

theorem isWinner_of_no_winner {acc : Bidder} (c : Bidder) (h : acc.Name = "") :
    isWinner acc c = true := by
  unfold isWinner
  simp [h]

/-- Invariant of the `DetermineWinner` reduction once a named running winner
exists and every remaining candidate is named: the result is one of the
candidates (or the accumulator), is named, and is `lexLt`-minimal. -/
theorem winnerLoop_go (bdrs : List Bidder) : ∀ acc : Bidder, acc.Name ≠ "" →
    (∀ b ∈ bdrs, b.Name ≠ "") →
    (bdrs.foldl winnerStep acc = acc ∨ bdrs.foldl winnerStep acc ∈ bdrs) ∧
    (bdrs.foldl winnerStep acc).Name ≠ "" ∧
    ¬ lexLt acc (bdrs.foldl winnerStep acc) ∧
    ∀ b ∈ bdrs, ¬ lexLt b (bdrs.foldl winnerStep acc) := by
  induction bdrs with
  | nil =>
      intro acc hacc _
      exact ⟨.inl rfl, hacc, lexLt_irrefl acc, by simp⟩
  | cons c rest ih =>
      intro acc hacc hnames
      have hc : c.Name ≠ "" := hnames c (List.mem_cons_self c rest)
      have hrest : ∀ b ∈ rest, b.Name ≠ "" :=
        fun b hb => hnames b (List.mem_cons_of_mem c hb)
      rw [List.foldl_cons]
      by_cases hw : isWinner acc c = true
      · have hstep : winnerStep acc c = c := by
          unfold winnerStep; rw [if_pos hw]
        rw [hstep]
        have hlt : lexLt c acc := (isWinner_eq_lexLt c hacc).mp hw
        obtain ⟨hmem, hname, hnacc, hall⟩ := ih c hc hrest
        refine ⟨?_, hname, ?_, ?_⟩
        · rcases hmem with h | h
          · rw [h]; exact .inr (List.mem_cons_self c rest)
          · exact .inr (List.mem_cons_of_mem c h)
        · intro h2
          exact hnacc (lexLt_trans hlt h2)
        · intro b hb
          rcases List.mem_cons.mp hb with rfl | hb'
          · exact hnacc
          · exact hall b hb'
      · have hstep : winnerStep acc c = acc := by
          unfold winnerStep; rw [if_neg hw]
        rw [hstep]
        have hnlt : ¬ lexLt c acc := fun h =>
          hw ((isWinner_eq_lexLt c hacc).mpr h)
        obtain ⟨hmem, hname, hnacc, hall⟩ := ih acc hacc hrest
        refine ⟨?_, hname, hnacc, ?_⟩
        · rcases hmem with h | h
          · exact .inl h
          · exact .inr (List.mem_cons_of_mem c h)
        · intro b hb
          rcases List.mem_cons.mp hb with rfl | hb'
          · intro h2
            exact hnacc (lexLt_of_not_of hnlt h2)
          · exact hall b hb'

/-- For a non-empty snapshot of entirely named bidders, the reduction result
is a named member of the snapshot and is `lexLt`-minimal in it. -/
theorem winnerLoop_min {bdrs : List Bidder} (hne : bdrs ≠ [])
    (hnames : ∀ b ∈ bdrs, b.Name ≠ "") :
    winnerLoop bdrs ∈ bdrs ∧ (winnerLoop bdrs).Name ≠ "" ∧
      ∀ b ∈ bdrs, ¬ lexLt b (winnerLoop bdrs) := by
  cases bdrs with
  | nil => exact absurd rfl hne
  | cons c rest =>
      have hc : c.Name ≠ "" := hnames c (List.mem_cons_self c rest)
      have hrest : ∀ b ∈ rest, b.Name ≠ "" :=
        fun b hb => hnames b (List.mem_cons_of_mem c hb)
      have hfirst : winnerStep zeroBidder c = c := by
        unfold winnerStep
        rw [if_pos (isWinner_of_no_winner c rfl)]
      unfold winnerLoop
      rw [List.foldl_cons, hfirst]
      obtain ⟨hmem, hname, hnacc, hall⟩ := winnerLoop_go rest c hc hrest
      refine ⟨?_, hname, ?_⟩
      · rcases hmem with h | h
        · rw [h]; exact List.mem_cons_self c rest
        · exact List.mem_cons_of_mem c h
      · intro b hb
        rcases List.mem_cons.mp hb with rfl | hb'
        · exact hnacc
        · exact hall b hb'

/-- If every bidder in the snapshot has an empty name, the reduction never
replaces the zero sentinel by a named record. -/
theorem winnerLoop_all_empty {bdrs : List Bidder}
    (h : ∀ b ∈ bdrs, b.Name = "") : (winnerLoop bdrs).Name = "" := by
  have hgen : ∀ l : List Bidder, (∀ b ∈ l, b.Name = "") →
      ∀ acc : Bidder, acc.Name = "" → (l.foldl winnerStep acc).Name = "" := by
    intro l
    induction l with
    | nil => intro _ acc hacc; exact hacc
    | cons c rest ih =>
        intro hl acc hacc
        rw [List.foldl_cons]
        have hc : c.Name = "" := hl c (List.mem_cons_self c rest)
        have hrest : ∀ b ∈ rest, b.Name = "" :=
          fun b hb => hl b (List.mem_cons_of_mem c hb)
        unfold winnerStep
        split
        · exact ih hrest c hc
        · exact ih hrest acc hacc
  exact hgen bdrs h zeroBidder rfl

/-! ## PlaceBid branch lemmas -/

theorem getBidder_error {s : InMemoryStore} {id : Nat} {e : GoErr}
    (h : s.GetBidder id = .error e) : e = .new "bidder not found" := by
  unfold InMemoryStore.GetBidder at h
  cases hf : s.bidders.find? (fun x => x.ID == id) with
  | none => rw [hf] at h; cases h; rfl
  | some b => rw [hf] at h; cases h

theorem placeBid_notFound {a : Auction} {id : Nat} {e : GoErr}
    (h : a.storer.GetBidder id = .error e) (now : Nat) :
    a.PlaceBid id now = (some (.wrap "failed to get bidder" e), a) := by
  unfold Auction.PlaceBid
  rw [h]

theorem placeBid_below {a : Auction} {id : Nat} {b : Bidder}
    (hget : a.storer.GetBidder id = .ok b)
    (h1 : b.CurrentBid + b.AutoIncrement < b.StartingBid) (now : Nat) :
    a.PlaceBid id now = (some (.new "bid amount is less than starting bid"), a) := by
  unfold Auction.PlaceBid
  rw [hget]
  simp only [if_pos h1]

theorem placeBid_exceeded_checks {a : Auction} {id : Nat} {b : Bidder}
    (hget : a.storer.GetBidder id = .ok b)
    (h1 : ¬(b.CurrentBid + b.AutoIncrement < b.StartingBid))
    (h2 : b.CurrentBid + b.AutoIncrement > b.MaxBid) (now : Nat) :
    a.PlaceBid id now =
      (some (.wrap "bid amount is greater than max bid" ErrExceededMaxBid), a) := by
  unfold Auction.PlaceBid
  rw [hget]
  simp only [if_neg h1, if_pos h2]

theorem placeBid_notIncreasing {a : Auction} {id : Nat} {b : Bidder}
    (hget : a.storer.GetBidder id = .ok b)
    (h1 : ¬(b.CurrentBid + b.AutoIncrement < b.StartingBid))
    (h2 : ¬(b.CurrentBid + b.AutoIncrement > b.MaxBid))
    (h3 : b.CurrentBid + b.AutoIncrement ≤ b.CurrentBid) (now : Nat) :
    a.PlaceBid id now =
      (some (.new "bid amount is less than or equal to current bid"), a) := by
  unfold Auction.PlaceBid
  rw [hget]
  simp only [if_neg h1, if_neg h2, if_pos h3]

theorem placeBid_success {a : Auction} {id : Nat} {b : Bidder}
    (hget : a.storer.GetBidder id = .ok b)
    (h1 : ¬(b.CurrentBid + b.AutoIncrement < b.StartingBid))
    (h2 : ¬(b.CurrentBid + b.AutoIncrement > b.MaxBid))
    (h3 : ¬(b.CurrentBid + b.AutoIncrement ≤ b.CurrentBid)) (now : Nat) :
    a.PlaceBid id now =
      (none, { a with
                storer := setBidder a.storer { b with
                            CurrentBid := b.CurrentBid + b.AutoIncrement
                            LastBidTime := now } }) := by
  unfold Auction.PlaceBid
  rw [hget]
  simp only [if_neg h1, if_neg h2, if_neg h3, InMemoryStore.UpdateBidder]

/-! ## Validation lemmas -/

theorem contains_iff {l : List Nat} {a : Nat} : l.contains a = true ↔ a ∈ l :=
  List.elem_iff

theorem validateLoop_none_iff (bs : List NewBidder) :
    ∀ seen : List Nat, (validateLoop bs seen = none ↔
      ((bs.map (fun b => b.ID)).Nodup ∧
        ∀ b ∈ bs, b.ID ∉ seen ∧ validateBidder b = none)) := by
  induction bs with
  | nil => intro seen; simp [validateLoop]
  | cons b rest ih =>
      intro seen
      unfold validateLoop
      by_cases hc : seen.contains b.ID = true
      · rw [if_pos hc]
        constructor
        · intro h; cases h
        · rintro ⟨-, hall⟩
          exact ((hall b (List.mem_cons_self b rest)).1 (contains_iff.mp hc)).elim
      · rw [if_neg hc]
        have hbseen : b.ID ∉ seen := fun hm => hc (contains_iff.mpr hm)
        cases hv : validateBidder b with
        | some e =>
            constructor
            · intro h; cases h
            · rintro ⟨-, hall⟩
              have h2 := (hall b (List.mem_cons_self b rest)).2
              rw [hv] at h2
              cases h2
        | none =>
            rw [ih (b.ID :: seen)]
            constructor
            · rintro ⟨hnd, hall⟩
              refine ⟨?_, ?_⟩
              · rw [List.map_cons, List.nodup_cons]
                refine ⟨?_, hnd⟩
                intro hmem
                obtain ⟨x, hx, hxid⟩ := List.mem_map.mp hmem
                exact (hall x hx).1 (by rw [hxid]; exact List.mem_cons_self _ _)
              · intro x hx
                rcases List.mem_cons.mp hx with rfl | hx'
                · exact ⟨hbseen, hv⟩
                · have hxall := hall x hx'
                  exact ⟨fun hm => hxall.1 (List.mem_cons_of_mem _ hm), hxall.2⟩
            · rintro ⟨hnd, hall⟩
              rw [List.map_cons, List.nodup_cons] at hnd
              refine ⟨hnd.2, ?_⟩
              intro x hx
              have hxall := hall x (List.mem_cons_of_mem b hx)
              refine ⟨?_, hxall.2⟩
              intro hm
              rcases List.mem_cons.mp hm with heq | hm'
              · exact hnd.1 (List.mem_map.mpr ⟨x, hx, heq⟩)
              · exact hxall.1 hm'

theorem validateLoop_ne_insufficient (bs : List NewBidder) :
    ∀ seen : List Nat,
      validateLoop bs seen ≠ some (.new "auction must have at least two bidders") := by
  induction bs with
  | nil => intro seen h; cases h
  | cons b rest ih =>
      intro seen h
      unfold validateLoop at h
      by_cases hc : seen.contains b.ID = true
      · rw [if_pos hc] at h
        simp at h
      · rw [if_neg hc] at h
        cases hv : validateBidder b with
        | some e => rw [hv] at h; cases h
        | none => rw [hv] at h; exact ih (b.ID :: seen) h

theorem validateLoop_cons_pass (b : NewBidder) (rest : List NewBidder)
    (seen : List Nat) (hc : b.ID ∉ seen) (hv : validateBidder b = none) :
    validateLoop (b :: rest) seen = validateLoop rest (b.ID :: seen) := by
  have hcc : ¬(seen.contains b.ID = true) := fun h => hc (contains_iff.mp h)
  show (if seen.contains b.ID then some (GoErr.new "duplicate bidder ID detected")
        else match validateBidder b with
          | some e => some (GoErr.wrap "invalid bidder data for bidder ID" e)
          | none => validateLoop rest (b.ID :: seen)) =
    validateLoop rest (b.ID :: seen)
  rw [if_neg hcc, hv]

/-- Walking past a prefix of valid, fresh-identifier configurations just
accumulates their identifiers into the seen set. -/
theorem validateLoop_append (pre : List NewBidder) :
    ∀ (rest : List NewBidder) (seen : List Nat),
      (pre.map (fun b => b.ID)).Nodup →
      (∀ x ∈ pre, x.ID ∉ seen ∧ validateBidder x = none) →
      validateLoop (pre ++ rest) seen =
        validateLoop rest ((pre.map (fun b => b.ID)).reverse ++ seen) := by
  induction pre with
  | nil => intro rest seen _ _; rfl
  | cons b pre' ih =>
      intro rest seen hnd hall
      have hb := hall b (List.mem_cons_self b pre')
      rw [List.map_cons, List.nodup_cons] at hnd
      have hall' : ∀ x ∈ pre', x.ID ∉ b.ID :: seen ∧ validateBidder x = none := by
        intro x hx
        have hxall := hall x (List.mem_cons_of_mem b hx)
        refine ⟨?_, hxall.2⟩
        intro hm
        rcases List.mem_cons.mp hm with heq | hm'
        · exact hnd.1 (List.mem_map.mpr ⟨x, hx, heq⟩)
        · exact hxall.1 hm'
      show validateLoop (b :: (pre' ++ rest)) seen = _
      rw [validateLoop_cons_pass b (pre' ++ rest) seen hb.1 hb.2]
      rw [ih rest (b.ID :: seen) hnd.2 hall']
      rw [List.map_cons, List.reverse_cons, List.append_assoc, List.singleton_append]

theorem validateLoop_cons_dup (b : NewBidder) (rest : List NewBidder)
    (seen : List Nat) (hc : b.ID ∈ seen) :
    validateLoop (b :: rest) seen = some (.new "duplicate bidder ID detected") := by
  have hcc : seen.contains b.ID = true := contains_iff.mpr hc
  show (if seen.contains b.ID then some (GoErr.new "duplicate bidder ID detected")
        else match validateBidder b with
          | some e => some (GoErr.wrap "invalid bidder data for bidder ID" e)
          | none => validateLoop rest (b.ID :: seen)) =
    some (GoErr.new "duplicate bidder ID detected")
  rw [if_pos hcc]

theorem validateLoop_cons_invalid (b : NewBidder) (rest : List NewBidder)
    (seen : List Nat) (hc : b.ID ∉ seen) {e : GoErr}
    (hv : validateBidder b = some e) :
    validateLoop (b :: rest) seen =
      some (.wrap "invalid bidder data for bidder ID" e) := by
  have hcc : ¬(seen.contains b.ID = true) := fun h => hc (contains_iff.mp h)
  show (if seen.contains b.ID then some (GoErr.new "duplicate bidder ID detected")
        else match validateBidder b with
          | some e => some (GoErr.wrap "invalid bidder data for bidder ID" e)
          | none => validateLoop rest (b.ID :: seen)) =
    some (GoErr.wrap "invalid bidder data for bidder ID" e)
  rw [if_neg hcc, hv]

/-! ## NewAuction lemmas -/

theorem newAuction_ok {na : NewAuctionConfig} {fid : Nat} {a : Auction}
    (h : NewAuction na fid = .ok a) :
    validateAuctionData na = none ∧
      a.storer.bidders = toNewBidders na.Bidders ∧ a.ID = fid := by
  unfold NewAuction at h
  split at h
  · cases h
  · next hv =>
      split at h
      · cases h
      · next s hadd =>
          cases h
          refine ⟨hv, ?_, rfl⟩
          have := addAll_ok hadd
          simpa using this

theorem newAuction_invalid {na : NewAuctionConfig} (fid : Nat)
    (h : ∃ nb ∈ na.Bidders, validateBidder nb ≠ none) :
    ∃ e, NewAuction na fid = .error (.wrap "invalid auction data" e) := by
  cases hval : validateAuctionData na with
  | some e =>
      refine ⟨e, ?_⟩
      unfold NewAuction
      rw [hval]
  | none =>
      exfalso
      obtain ⟨nb, hnb, hinvalid⟩ := h
      unfold validateAuctionData at hval
      split at hval
      · cases hval
      · have := ((validateLoop_none_iff na.Bidders []).mp hval).2 nb hnb
        exact hinvalid this.2

/-! ## Concurrency model lemmas -/

theorem getBidder_eq_entry (s : InMemoryStore) (id : Nat) :
    s.GetBidder id = (match entryOf s id with
      | some b => Except.ok b
      | none => Except.error (.new "bidder not found")) := rfl

theorem threadStep_bidderID (s : InMemoryStore) (t : ThreadState) :
    ((threadStep s t).2).bidderID = t.bidderID := by
  obtain ⟨tid, tpend, thold⟩ := t
  cases thold with
  | some p =>
      obtain ⟨b0, now0⟩ := p
      simp only [threadStep]
      split_ifs <;> rfl
  | none =>
      cases tpend with
      | nil => rfl
      | cons now0 rest =>
          simp only [threadStep]
          cases s.GetBidder tid <;> rfl

theorem threadStep_wf (s : InMemoryStore) (t : ThreadState) :
    ∀ b now, ((threadStep s t).2).holding = some (b, now) →
      b.ID = t.bidderID := by
  obtain ⟨tid, tpend, thold⟩ := t
  intro b now h
  cases thold with
  | some p =>
      obtain ⟨b0, now0⟩ := p
      simp only [threadStep] at h
      split_ifs at h
  | none =>
      cases tpend with
      | nil => simp [threadStep] at h
      | cons now0 rest =>
          simp only [threadStep] at h
          cases hget : s.GetBidder tid with
          | error e => rw [hget] at h; simp at h
          | ok b0 =>
              rw [hget] at h
              simp only at h
              obtain ⟨hb, -⟩ := Prod.mk.injEq .. ▸ Option.some.inj h
              rw [← hb]
              exact (getBidder_mem hget).2

theorem threadStep_entry_other (s : InMemoryStore) (t : ThreadState) (id : Nat)
    (hwf : ∀ b now, t.holding = some (b, now) → b.ID = t.bidderID)
    (hne : id ≠ t.bidderID) :
    entryOf (threadStep s t).1 id = entryOf s id := by
  obtain ⟨tid, tpend, thold⟩ := t
  cases thold with
  | some p =>
      obtain ⟨b0, now0⟩ := p
      have hb : b0.ID = tid := hwf b0 now0 rfl
      simp only [threadStep]
      split_ifs <;> try rfl
      have hne2 : id ≠ ({ b0 with
          CurrentBid := b0.CurrentBid + b0.AutoIncrement
          LastBidTime := now0 } : Bidder).ID := by
        show id ≠ b0.ID
        rw [hb]
        exact hne
      exact entry_setBidder_ne s _ id hne2
  | none =>
      cases tpend with
      | nil => rfl
      | cons now0 rest =>
          simp only [threadStep]
          cases s.GetBidder tid <;> rfl

theorem threadStep_localStep (s : InMemoryStore) (t : ThreadState)
    (hwf : ∀ b now, t.holding = some (b, now) → b.ID = t.bidderID) :
    (entryOf (threadStep s t).1 t.bidderID, (threadStep s t).2) =
      localStep (entryOf s t.bidderID, t) := by
  obtain ⟨tid, tpend, thold⟩ := t
  cases thold with
  | some p =>
      obtain ⟨b0, now0⟩ := p
      have hb : b0.ID = tid := hwf b0 now0 rfl
      simp only [threadStep, localStep]
      split_ifs <;> try rfl
      congr 1
      show entryOf (setBidder s { b0 with
          CurrentBid := b0.CurrentBid + b0.AutoIncrement
          LastBidTime := now0 }) tid = _
      rw [← hb]
      exact entry_setBidder_same s { b0 with
        CurrentBid := b0.CurrentBid + b0.AutoIncrement
        LastBidTime := now0 }
  | none =>
      cases tpend with
      | nil => rfl
      | cons now0 rest =>
          cases hent : entryOf s tid with
          | none =>
              have hget : s.GetBidder tid = .error (.new "bidder not found") := by
                rw [getBidder_eq_entry, hent]
              simp only [threadStep, localStep, hget, hent]
          | some b =>
              have hget : s.GetBidder tid = .ok b := by
                rw [getBidder_eq_entry, hent]
              simp only [threadStep, localStep, hget, hent]

theorem concStep_threads_self {n : Nat} (c : Conc n) (j : Fin n) :
    (concStep c j).threads j = (threadStep c.store (c.threads j)).2 :=
  Function.update_same j _ _

theorem concStep_threads_other {n : Nat} (c : Conc n) {i j : Fin n}
    (h : i ≠ j) : (concStep c j).threads i = c.threads i :=
  Function.update_noteq h _ _

theorem concStep_store {n : Nat} (c : Conc n) (j : Fin n) :
    (concStep c j).store = (threadStep c.store (c.threads j)).1 := rfl

/-- Interleaving projection: over any schedule, the pair (own store entry,
thread state) of each thread evolves exactly by its own `localStep`s — one
per occurrence of the thread in the schedule — because every other scheduled
thread reads and writes only its own distinct bidder. -/
theorem concRun_localView {n : Nat} (sched : List (Fin n)) :
    ∀ c : Conc n,
      (∀ i1 j1 : Fin n, i1 ≠ j1 →
        (c.threads i1).bidderID ≠ (c.threads j1).bidderID) →
      (∀ j : Fin n, ∀ b now, (c.threads j).holding = some (b, now) →
        b.ID = (c.threads j).bidderID) →
      ∀ i : Fin n,
        (entryOf (concRun c sched).store ((c.threads i).bidderID),
          (concRun c sched).threads i) =
        localStep^[sched.count i]
          (entryOf c.store ((c.threads i).bidderID), c.threads i) := by
  induction sched with
  | nil => intro c _ _ i; rfl
  | cons j rest ih =>
      intro c hdist hwf i
      have hbid : ∀ k : Fin n,
          ((concStep c j).threads k).bidderID = (c.threads k).bidderID := by
        intro k
        by_cases hkj : k = j
        · subst hkj
          rw [concStep_threads_self]
          exact threadStep_bidderID c.store (c.threads k)
        · rw [concStep_threads_other c hkj]
      have hdist' : ∀ i1 j1 : Fin n, i1 ≠ j1 →
          ((concStep c j).threads i1).bidderID ≠
            ((concStep c j).threads j1).bidderID := by
        intro i1 j1 h
        rw [hbid i1, hbid j1]
        exact hdist i1 j1 h
      have hwf' : ∀ k : Fin n, ∀ b now,
          ((concStep c j).threads k).holding = some (b, now) →
          b.ID = ((concStep c j).threads k).bidderID := by
        intro k b now h
        rw [hbid k]
        by_cases hkj : k = j
        · subst hkj
          rw [concStep_threads_self] at h
          exact threadStep_wf c.store (c.threads k) b now h
        · rw [concStep_threads_other c hkj] at h
          exact hwf k b now h
      have hih := ih (concStep c j) hdist' hwf' i
      rw [hbid i] at hih
      show (entryOf (concRun (concStep c j) rest).store ((c.threads i).bidderID),
          (concRun (concStep c j) rest).threads i) =
        localStep^[(j :: rest).count i]
          (entryOf c.store ((c.threads i).bidderID), c.threads i)
      by_cases hij : i = j
      · subst hij
        have hself : (entryOf (concStep c i).store ((c.threads i).bidderID),
            (concStep c i).threads i) =
            localStep (entryOf c.store ((c.threads i).bidderID),
              c.threads i) := by
          rw [concStep_store, concStep_threads_self]
          exact threadStep_localStep c.store (c.threads i) (hwf i)
        rw [List.count_cons_self, Function.iterate_succ_apply, ← hself]
        exact hih
      · rw [List.count_cons_of_ne hij]
        have hother_e : entryOf (concStep c j).store ((c.threads i).bidderID) =
            entryOf c.store ((c.threads i).bidderID) := by
          rw [concStep_store]
          exact threadStep_entry_other c.store (c.threads j) _
            (hwf j) (hdist i j hij)
        rw [concStep_threads_other c hij, hother_e] at hih
        exact hih

/-- A thread that has worked through all of its calls has applied exactly the
sequential per-call effect `entryBid` to its own entry. -/
theorem localIter_finished (nows : List Nat) :
    ∀ (k : Nat) (e : Option Bidder) (id : Nat),
      (localStep^[k] (e, (⟨id, nows, none⟩ : ThreadState))).2 =
        (⟨id, [], none⟩ : ThreadState) →
      (localStep^[k] (e, (⟨id, nows, none⟩ : ThreadState))).1 =
        nows.foldl entryBid e := by
  induction nows with
  | nil =>
      intro k e id _
      have hfix : localStep (e, (⟨id, [], none⟩ : ThreadState)) =
          (e, ⟨id, [], none⟩) := rfl
      rw [Function.iterate_fixed hfix k]
      rfl
  | cons now rest ih =>
      intro k e id hfin
      cases k with
      | zero => simp at hfin
      | succ k1 =>
          rw [Function.iterate_succ_apply] at hfin ⊢
          cases e with
          | none =>
              have hstep : localStep ((none : Option Bidder),
                  (⟨id, now :: rest, none⟩ : ThreadState)) =
                  (none, ⟨id, rest, none⟩) := rfl
              rw [hstep] at hfin ⊢
              rw [ih k1 none id hfin]
              rfl
          | some b =>
              have hstep : localStep (some b,
                  (⟨id, now :: rest, none⟩ : ThreadState)) =
                  (some b, ⟨id, rest, some (b, now)⟩) := rfl
              rw [hstep] at hfin ⊢
              cases k1 with
              | zero => simp at hfin
              | succ k2 =>
                  rw [Function.iterate_succ_apply] at hfin ⊢
                  have hstep2 : localStep (some b,
                      (⟨id, rest, some (b, now)⟩ : ThreadState)) =
                      (entryBid (some b) now, ⟨id, rest, none⟩) := by
                    simp only [localStep, entryBid]
                    split_ifs <;> rfl
                  rw [hstep2] at hfin ⊢
                  rw [ih k2 (entryBid (some b) now) id hfin]
                  rfl

/-- `entryBid` never pushes `CurrentBid` above `MaxBid` when it was not
already above. -/
theorem entryBid_le {e : Option Bidder}
    (he : ∀ b, e = some b → b.CurrentBid ≤ b.MaxBid) (now : Nat) :
    ∀ b', entryBid e now = some b' → b'.CurrentBid ≤ b'.MaxBid := by
  intro b' hb'
  cases e with
  | none => cases hb'
  | some b =>
      simp only [entryBid] at hb'
      split_ifs at hb' with h1 h2 h3
      · cases hb'; exact he _ rfl
      · cases hb'; exact he _ rfl
      · cases hb'; exact he _ rfl
      · cases hb'
        show b.CurrentBid + b.AutoIncrement ≤ b.MaxBid
        exact not_lt.mp h2

theorem entryBid_foldl_le (nows : List Nat) :
    ∀ e : Option Bidder, (∀ b, e = some b → b.CurrentBid ≤ b.MaxBid) →
      ∀ b', nows.foldl entryBid e = some b' → b'.CurrentBid ≤ b'.MaxBid := by
  induction nows with
  | nil => intro e he b' hb'; exact he b' hb'
  | cons now rest ih =>
      intro e he b' hb'
      rw [List.foldl_cons] at hb'
      exact ih (entryBid e now) (fun b h => entryBid_le he now b h) b' hb'

/-- One whole sequential `PlaceBid` call changes the bidder's own store entry
exactly by `entryBid` (and failed calls change nothing). -/
theorem entryBid_placeBid (a : Auction) (id now : Nat) :
    entryOf (a.PlaceBid id now).2.storer id = entryBid (entryOf a.storer id) now := by
  cases hent : entryOf a.storer id with
  | none =>
      have hget : a.storer.GetBidder id = .error (.new "bidder not found") := by
        rw [getBidder_eq_entry, hent]
      rw [placeBid_notFound hget now]
      exact hent
  | some b =>
      have hget : a.storer.GetBidder id = .ok b := by
        rw [getBidder_eq_entry, hent]
      have hid : b.ID = id := (getBidder_mem hget).2
      by_cases h1 : b.CurrentBid + b.AutoIncrement < b.StartingBid
      · rw [placeBid_below hget h1 now]
        simp only [entryBid]
        rw [if_pos h1]
        exact hent
      · by_cases h2 : b.CurrentBid + b.AutoIncrement > b.MaxBid
        · rw [placeBid_exceeded_checks hget h1 h2 now]
          simp only [entryBid]
          rw [if_neg h1, if_pos h2]
          exact hent
        · by_cases h3 : b.CurrentBid + b.AutoIncrement ≤ b.CurrentBid
          · rw [placeBid_notIncreasing hget h1 h2 h3 now]
            simp only [entryBid]
            rw [if_neg h1, if_neg h2, if_pos h3]
            exact hent
          · rw [placeBid_success hget h1 h2 h3 now]
            simp only [entryBid]
            rw [if_neg h1, if_neg h2, if_neg h3]
            show entryOf (setBidder a.storer { b with
                CurrentBid := b.CurrentBid + b.AutoIncrement
                LastBidTime := now }) id = _
            rw [← hid]
            exact entry_setBidder_same a.storer { b with
              CurrentBid := b.CurrentBid + b.AutoIncrement
              LastBidTime := now }

/-! ## Arithmetic facts (Rat addition is irreducible, so concrete sums are
evaluated by `norm_num` once and reused) -/

theorem q_two_lt_two_add_one : (2 : ℚ) < 2 + 1 := by norm_num

theorem q_not_two_add_one_lt_one : ¬((2 : ℚ) + 1 < 1) := by norm_num

theorem q_two_add_one_gt_two : (2 : ℚ) + 1 > 2 := by norm_num

/-! ## Claim theorems -/

/-- C10: every failing `PlaceBid` call is atomic with respect to the store:
when `PlaceBid` returns any error (bidder not found, below starting bid,
exceeded max bid, or bid not increasing), the auction — its store contents
included — is exactly as before the call. -/
theorem C10_failed_placeBid_is_atomic (a : Auction) (id now : Nat) (e : GoErr)
    (h : (a.PlaceBid id now).1 = some e) : (a.PlaceBid id now).2 = a :=
  placeBid_error_frame h

theorem C10_witness :
    (C10a.PlaceBid 1 0).1 =
      some (.wrap "failed to get bidder" (.new "bidder not found")) ∧
    (C10a.PlaceBid 1 0).2 = C10a :=
  ⟨rfl, C10_failed_placeBid_is_atomic C10a 1 0
    (.wrap "failed to get bidder" (.new "bidder not found")) rfl⟩

/-- C8: the store's `UpdateBidder` never fails and unconditionally overwrites
the record stored under the given identifier; an absent identifier is
inserted rather than rejected, and records under other identifiers are
untouched. -/
theorem C8_update_is_upsert (s : InMemoryStore) (b : Bidder) (id' : Nat) :
    s.UpdateBidder b = .ok (setBidder s b) ∧
    (setBidder s b).GetBidder b.ID = .ok b ∧
    (id' ≠ b.ID → (setBidder s b).GetBidder id' = s.GetBidder id') :=
  ⟨rfl, getBidder_setBidder_same s b,
    fun h => getBidder_setBidder_ne s b id' h⟩

theorem C8_witness :
    C8s.UpdateBidder C8b = .ok (setBidder C8s C8b) ∧
    (setBidder C8s C8b).GetBidder 1 = .ok C8b ∧
    (setBidder C8s C8b).GetBidder 5 = C8s.GetBidder 5 := by
  have h := C8_update_is_upsert C8s C8b 5
  exact ⟨h.1, h.2.1, h.2.2 (by decide)⟩

/-- C2: for a stored bidder (any bidder seeded through construction has
`StartingBid ≤ MaxBid`), every successful `PlaceBid` writes back exactly the
previous `CurrentBid` plus `AutoIncrement` together with the new
`LastBidTime`, and strictly increases `CurrentBid`; and once the next amount
would exceed `MaxBid`, after any further request sequence the record is
unchanged and every call on this bidder fails with the `ErrExceededMaxBid`
sentinel. -/
theorem C2_bid_progression (a : Auction) (id : Nat) (b : Bidder)
    (hget : a.storer.GetBidder id = .ok b)
    (hsm : b.StartingBid ≤ b.MaxBid) :
    (∀ now, (a.PlaceBid id now).1 = none →
      (a.PlaceBid id now).2.storer.GetBidder id =
        .ok { b with CurrentBid := b.CurrentBid + b.AutoIncrement,
                     LastBidTime := now } ∧
      b.CurrentBid < b.CurrentBid + b.AutoIncrement) ∧
    (b.MaxBid < b.CurrentBid + b.AutoIncrement →
      ∀ reqs : List (Nat × Nat),
        (runBids a reqs).storer.GetBidder id = .ok b ∧
        ∀ now2, (runBids a reqs).PlaceBid id now2 =
          (some (.wrap "bid amount is greater than max bid" ErrExceededMaxBid),
            runBids a reqs) ∧
          errorsIs (.wrap "bid amount is greater than max bid" ErrExceededMaxBid)
            ErrExceededMaxBid = true) := by
  constructor
  · intro now hnone
    rcases placeBid_cases a id now with ⟨⟨e, he⟩, -⟩ | ⟨b', hget', h1, h2, h3, heq⟩
    · rw [hnone] at he
      cases he
    · rw [hget] at hget'
      have hbb : b = b' := Except.ok.inj hget'
      subst hbb
      constructor
      · rw [heq]
        have hid : b.ID = id := (getBidder_mem hget).2
        rw [← hid]
        exact getBidder_setBidder_same a.storer _
      · exact lt_of_not_le h3
  · intro hex reqs
    have hstable := runBids_exceeded_stable hget hsm hex reqs
    refine ⟨hstable, ?_⟩
    intro now2
    exact ⟨placeBid_exceeded hstable hsm hex now2, rfl⟩

theorem C2_witness :
    (runBids C2a [(1, 9)]).storer.GetBidder 1 = .ok C2b ∧
    (runBids C2a [(1, 9)]).PlaceBid 1 5 =
      (some (.wrap "bid amount is greater than max bid" ErrExceededMaxBid),
        runBids C2a [(1, 9)]) := by
  have h := (C2_bid_progression C2a 1 C2b rfl (by decide)).2
    q_two_lt_two_add_one [(1, 9)]
  exact ⟨h.1, (h.2 5).1⟩

/-- C3: `PlaceBid`'s failure taxonomy in source order — absent bidder, then
(with `bidAmount = CurrentBid + AutoIncrement`) below starting bid, then
above max bid, then not increasing — and the above-max-bid failure is the
only one whose error matches `ErrExceededMaxBid` under `errors.Is`. -/
theorem C3_placeBid_error_taxonomy (a : Auction) (id now : Nat) :
    (∀ e, a.storer.GetBidder id = .error e →
      e = .new "bidder not found" ∧
      (a.PlaceBid id now).1 =
        some (.wrap "failed to get bidder" (.new "bidder not found")) ∧
      errorsIs (.wrap "failed to get bidder" (.new "bidder not found"))
        ErrExceededMaxBid = false) ∧
    (∀ b, a.storer.GetBidder id = .ok b →
      (b.CurrentBid + b.AutoIncrement < b.StartingBid →
        (a.PlaceBid id now).1 =
          some (.new "bid amount is less than starting bid")) ∧
      (¬(b.CurrentBid + b.AutoIncrement < b.StartingBid) →
        b.CurrentBid + b.AutoIncrement > b.MaxBid →
        (a.PlaceBid id now).1 =
          some (.wrap "bid amount is greater than max bid" ErrExceededMaxBid) ∧
        errorsIs (.wrap "bid amount is greater than max bid" ErrExceededMaxBid)
          ErrExceededMaxBid = true) ∧
      (¬(b.CurrentBid + b.AutoIncrement < b.StartingBid) →
        ¬(b.CurrentBid + b.AutoIncrement > b.MaxBid) →
        b.CurrentBid + b.AutoIncrement ≤ b.CurrentBid →
        (a.PlaceBid id now).1 =
          some (.new "bid amount is less than or equal to current bid"))) ∧
    (∀ e, (a.PlaceBid id now).1 = some e →
      (errorsIs e ErrExceededMaxBid = true ↔
        ∃ b, a.storer.GetBidder id = .ok b ∧
          ¬(b.CurrentBid + b.AutoIncrement < b.StartingBid) ∧
          b.CurrentBid + b.AutoIncrement > b.MaxBid)) := by
  refine ⟨?_, ?_, ?_⟩
  · intro e he
    have hee := getBidder_error he
    subst hee
    exact ⟨rfl, by rw [placeBid_notFound he now], rfl⟩
  · intro b hget
    refine ⟨?_, ?_, ?_⟩
    · intro h1
      rw [placeBid_below hget h1 now]
    · intro h1 h2
      exact ⟨by rw [placeBid_exceeded_checks hget h1 h2 now], rfl⟩
    · intro h1 h2 h3
      rw [placeBid_notIncreasing hget h1 h2 h3 now]
  · intro e he
    constructor
    · intro his
      cases hget : a.storer.GetBidder id with
      | error e2 =>
          rw [placeBid_notFound hget now] at he
          cases he
          have he2 := getBidder_error hget
          subst he2
          exact absurd his (by decide)
      | ok b =>
          by_cases h1 : b.CurrentBid + b.AutoIncrement < b.StartingBid
          · rw [placeBid_below hget h1 now] at he
            cases he
            exact absurd his (by decide)
          · by_cases h2 : b.CurrentBid + b.AutoIncrement > b.MaxBid
            · exact ⟨b, rfl, h1, h2⟩
            · by_cases h3 : b.CurrentBid + b.AutoIncrement ≤ b.CurrentBid
              · rw [placeBid_notIncreasing hget h1 h2 h3 now] at he
                cases he
                exact absurd his (by decide)
              · rw [placeBid_success hget h1 h2 h3 now] at he
                cases he
    · rintro ⟨b, hget, h1, h2⟩
      rw [placeBid_exceeded_checks hget h1 h2 now] at he
      cases he
      rfl

theorem C3_witness :
    (C3a.PlaceBid 1 7).1 =
      some (.wrap "bid amount is greater than max bid" ErrExceededMaxBid) ∧
    errorsIs (.wrap "bid amount is greater than max bid" ErrExceededMaxBid)
      ErrExceededMaxBid = true :=
  ((C3_placeBid_error_taxonomy C3a 1 7).2.1 ⟨1, "A", 1, 2, 2, 1, 0⟩ rfl).2.1
    q_not_two_add_one_lt_one q_two_add_one_gt_two

/-- C4 counterexample: validation accepts a caller-supplied configuration
whose seeded `CurrentBid` (100) already exceeds `MaxBid` (20), so the freshly
constructed — hence reachable — auction state violates
`currentBid ≤ maxBid`. -/
theorem C4_counterexample :
    ReachableFrom C4cfg 0 C4auction ∧
    ∃ b ∈ C4auction.storer.bidders, ¬(b.CurrentBid ≤ b.MaxBid) :=
  ⟨ReachableFrom.init C4auction rfl, by decide⟩

/-- C4 (amended): provided every caller-supplied bidder is seeded with
`CurrentBid ≤ MaxBid` (validation does not check this; the claim as stated
fails at `C4_counterexample`), every state reachable from construction
through any sequence of `PlaceBid` calls keeps `CurrentBid ≤ MaxBid` for
every stored bidder. -/
theorem C4_amended_invariant (na : NewAuctionConfig) (fid : Nat)
    (hcur : ∀ nb ∈ na.Bidders, nb.CurrentBid ≤ nb.MaxBid)
    (a : Auction) (h : ReachableFrom na fid a) :
    ∀ b ∈ a.storer.bidders, b.CurrentBid ≤ b.MaxBid := by
  induction h with
  | init a0 h0 =>
      obtain ⟨-, hb, -⟩ := newAuction_ok h0
      intro b hbmem
      rw [hb] at hbmem
      obtain ⟨nb, hnb, rfl⟩ := List.mem_map.mp hbmem
      exact hcur nb hnb
  | bid a0 id now h0 ih =>
      rcases placeBid_cases a0 id now with ⟨-, h2⟩ | ⟨b', hget, h1, h2, h3, heq⟩
      · rw [h2]; exact ih
      · rw [heq]
        intro b hb
        rcases mem_setBidder hb with rfl | hmem
        · show b'.CurrentBid + b'.AutoIncrement ≤ b'.MaxBid
          exact not_lt.mp h2
        · exact ih b hmem

theorem C4_amended_witness :
    (toNewBidder ⟨1, "A", 1, 2, 1, 1, 0⟩).CurrentBid ≤
      (toNewBidder ⟨1, "A", 1, 2, 1, 1, 0⟩).MaxBid :=
  C4_amended_invariant C4Wcfg 3 (by decide)
    ⟨⟨toNewBidders C4Wcfg.Bidders⟩, 3⟩ (ReachableFrom.init _ rfl)
    (toNewBidder ⟨1, "A", 1, 2, 1, 1, 0⟩) (by decide)

/-- C6: `NewAuction` is all-or-nothing — if any input bidder fails
validation it fails with the `invalid auction data` (`InvalidAuctionConfig`)
wrap and returns no auction (hence no store is observable) — and on success
the auction's store holds exactly the converted input bidders, every field
(including a caller-pre-populated `CurrentBid` and the `LastBidTime`)
retained as-is. -/
theorem C6_construction_all_or_nothing (na : NewAuctionConfig) (fid : Nat) :
    ((∃ nb ∈ na.Bidders, validateBidder nb ≠ none) →
      ∃ e, NewAuction na fid = .error (.wrap "invalid auction data" e)) ∧
    (∀ a, NewAuction na fid = .ok a →
      a.storer.bidders = toNewBidders na.Bidders ∧
      ∀ nb ∈ na.Bidders, toNewBidder nb ∈ a.storer.bidders ∧
        (toNewBidder nb).CurrentBid = nb.CurrentBid ∧
        (toNewBidder nb).LastBidTime = nb.LastBidTime ∧
        (toNewBidder nb).ID = nb.ID ∧
        (toNewBidder nb).Name = nb.Name ∧
        (toNewBidder nb).StartingBid = nb.StartingBid ∧
        (toNewBidder nb).MaxBid = nb.MaxBid ∧
        (toNewBidder nb).AutoIncrement = nb.AutoIncrement) := by
  constructor
  · exact newAuction_invalid fid
  · intro a ha
    obtain ⟨-, hb, -⟩ := newAuction_ok ha
    refine ⟨hb, ?_⟩
    intro nb hnb
    refine ⟨?_, rfl, rfl, rfl, rfl, rfl, rfl, rfl⟩
    rw [hb]
    exact List.mem_map.mpr ⟨nb, hnb, rfl⟩

theorem C6_witness :
    C6auction.storer.bidders = toNewBidders C6cfg.Bidders ∧
    toNewBidder ⟨1, "A", 1, 2, 1, 1, 5⟩ ∈ C6auction.storer.bidders ∧
    (toNewBidder ⟨1, "A", 1, 2, 1, 1, 5⟩).CurrentBid = (1 : ℚ) ∧
    (toNewBidder ⟨1, "A", 1, 2, 1, 1, 5⟩).LastBidTime = 5 := by
  have h := (C6_construction_all_or_nothing C6cfg 9).2 C6auction rfl
  have h2 := h.2 ⟨1, "A", 1, 2, 1, 1, 5⟩ (by decide)
  exact ⟨h.1, h2.1, h2.2.1, h2.2.2.1⟩

/-- C1 counterexample: on the snapshot `C1list`, the reduction returns the
named bidder `B` (identifier 3, current bid 10) although bidder `A`
(identifier 1, current bid 5, non-empty name) has a strictly lower current
bid — the empty-named middle bidder resets the scan's sentinel check. -/
theorem C1_counterexample :
    determineWinnerFrom C1list = .ok ⟨3, "B"⟩ ∧
    (⟨1, "A", 1, 20, 5, 1, 0⟩ : Bidder) ∈ C1list ∧
    (⟨1, "A", 1, 20, 5, 1, 0⟩ : Bidder).CurrentBid <
      (⟨3, "B", 1, 20, 10, 1, 0⟩ : Bidder).CurrentBid :=
  ⟨rfl, by decide, by decide⟩

/-- C1 (amended): over any non-empty snapshot in which every bidder has a
non-empty name (the claim as stated fails at `C1_counterexample` when an
empty-named bidder is present), `DetermineWinner` returns a bidder from the
snapshot such that no bidder has a strictly lower `CurrentBid` and none with
an equal `CurrentBid` has a strictly earlier `LastBidTime`; in particular,
on the two-bidder 78/78 tie the earlier `LastBidTime` wins in either
snapshot order. -/
theorem C1_amended_winner_minimal (bdrs : List Bidder) (hne : bdrs ≠ [])
    (hnames : ∀ b ∈ bdrs, b.Name ≠ "") :
    (winnerLoop bdrs ∈ bdrs ∧
      determineWinnerFrom bdrs =
        .ok ⟨(winnerLoop bdrs).ID, (winnerLoop bdrs).Name⟩ ∧
      ∀ b ∈ bdrs, ¬(b.CurrentBid < (winnerLoop bdrs).CurrentBid) ∧
        (b.CurrentBid = (winnerLoop bdrs).CurrentBid →
          ¬(b.LastBidTime < (winnerLoop bdrs).LastBidTime))) ∧
    (determineWinnerFrom
        [⟨1, "A", 50, 100, 78, 5, 1⟩, ⟨2, "B", 50, 100, 78, 5, 2⟩] =
      .ok ⟨1, "A"⟩ ∧
     determineWinnerFrom
        [⟨2, "B", 50, 100, 78, 5, 2⟩, ⟨1, "A", 50, 100, 78, 5, 1⟩] =
      .ok ⟨1, "A"⟩) := by
  obtain ⟨hmem, hname, hall⟩ := winnerLoop_min hne hnames
  refine ⟨⟨hmem, ?_, ?_⟩, rfl, rfl⟩
  · have hbeq : ((winnerLoop bdrs).Name == "") = false :=
      beq_eq_false_iff_ne.mpr hname
    unfold determineWinnerFrom
    simp [hbeq]
  · intro b hb
    have h := hall b hb
    unfold lexLt at h
    constructor
    · intro hlt
      exact h (.inl hlt)
    · intro heq hlt
      exact h (.inr ⟨heq, hlt⟩)

theorem C1_amended_witness :
    winnerLoop [⟨1, "A", 50, 100, 78, 5, 1⟩, ⟨2, "B", 50, 100, 78, 5, 2⟩] ∈
      [⟨1, "A", 50, 100, 78, 5, 1⟩, ⟨2, "B", 50, 100, 78, 5, 2⟩] ∧
    determineWinnerFrom [⟨1, "A", 50, 100, 78, 5, 1⟩, ⟨2, "B", 50, 100, 78, 5, 2⟩] =
      .ok ⟨(winnerLoop [⟨1, "A", 50, 100, 78, 5, 1⟩, ⟨2, "B", 50, 100, 78, 5, 2⟩]).ID,
           (winnerLoop [⟨1, "A", 50, 100, 78, 5, 1⟩, ⟨2, "B", 50, 100, 78, 5, 2⟩]).Name⟩ := by
  have h := C1_amended_winner_minimal
    [⟨1, "A", 50, 100, 78, 5, 1⟩, ⟨2, "B", 50, 100, 78, 5, 2⟩]
    (by decide) (by decide)
  exact ⟨h.1.1, h.1.2.1⟩

/-- C7 counterexample: the snapshot `C7list` contains the named bidder `A`,
yet `DetermineWinner` fails with `no winner`, because the lower-bidding
empty-named bidder ends the scan as the running best. -/
theorem C7_counterexample :
    determineWinnerFrom C7list = .error (.new "no winner") ∧
    (⟨1, "A", 1, 10, 5, 1, 0⟩ : Bidder) ∈ C7list ∧
    (⟨1, "A", 1, 10, 5, 1, 0⟩ : Bidder).Name ≠ "" :=
  ⟨rfl, by decide, by decide⟩

/-- C7 (amended): `DetermineWinner` fails with `no winner` when the snapshot
is empty or no bidder has a non-empty name; and whenever the snapshot is
non-empty and every listed bidder has a non-empty name, a winner (identifier
plus name) is returned.  (With a mixture of empty- and non-empty-named
bidders the scan can end on an empty-named record, so `no winner` is
possible even though some bidder is named — `C7_counterexample`.) -/
theorem C7_amended_no_winner (bdrs : List Bidder) :
    (bdrs = [] → determineWinnerFrom bdrs = .error (.new "no winner")) ∧
    ((∀ b ∈ bdrs, b.Name = "") →
      determineWinnerFrom bdrs = .error (.new "no winner")) ∧
    (bdrs ≠ [] → (∀ b ∈ bdrs, b.Name ≠ "") →
      ∃ w : Winner, determineWinnerFrom bdrs = .ok w) := by
  refine ⟨?_, ?_, ?_⟩
  · rintro rfl
    rfl
  · intro h
    have hw := winnerLoop_all_empty h
    unfold determineWinnerFrom
    simp [hw]
  · intro hne hnames
    obtain ⟨-, hname, -⟩ := winnerLoop_min hne hnames
    refine ⟨⟨(winnerLoop bdrs).ID, (winnerLoop bdrs).Name⟩, ?_⟩
    have hbeq : ((winnerLoop bdrs).Name == "") = false :=
      beq_eq_false_iff_ne.mpr hname
    unfold determineWinnerFrom
    simp [hbeq]

theorem C7_amended_witness :
    determineWinnerFrom ([] : List Bidder) = .error (.new "no winner") ∧
    ∃ w : Winner, determineWinnerFrom [⟨1, "A", 1, 10, 5, 1, 0⟩] = .ok w :=
  ⟨(C7_amended_no_winner []).1 rfl,
    (C7_amended_no_winner [⟨1, "A", 1, 10, 5, 1, 0⟩]).2.2 (by decide) (by decide)⟩

/-- C5 counterexample: in `C5cfg` the second and third bidders share
identifier 2, yet `validateAuctionData` does not fail with the duplicate
error — the first bidder's invalid data (non-positive starting bid) is
reported first, in input order. -/
theorem C5_counterexample :
    validateAuctionData C5cfg =
      some (.wrap "invalid bidder data for bidder ID"
        (.new "starting bid must be positive")) ∧
    (C5cfg.Bidders.map fun b => b.ID) = [1, 2, 2] ∧
    validateAuctionData C5cfg ≠ some (.new "duplicate bidder ID detected") :=
  ⟨rfl, rfl, by decide⟩

/-- C5 (amended): `validateAuctionData` fails with `InsufficientBidders`
exactly when fewer than two bidders are supplied; with at least two, it
succeeds exactly when the identifiers are pairwise distinct and every bidder
passes individual validation; and the error reported is that of the first
offending bidder in input order, the duplicate-identifier check preceding
individual validation at each position (so an earlier invalid bidder
preempts a later duplicate — the claim as stated fails at
`C5_counterexample`). -/
theorem C5_amended_validation (na : NewAuctionConfig) :
    (validateAuctionData na =
        some (.new "auction must have at least two bidders") ↔
      na.Bidders.length ≤ 1) ∧
    (2 ≤ na.Bidders.length →
      (validateAuctionData na = none ↔
        ((na.Bidders.map fun b => b.ID).Nodup ∧
          ∀ b ∈ na.Bidders, validateBidder b = none))) ∧
    (∀ (pre : List NewBidder) (b : NewBidder) (post : List NewBidder),
      na.Bidders = pre ++ b :: post →
      2 ≤ na.Bidders.length →
      (pre.map fun x => x.ID).Nodup →
      (∀ x ∈ pre, validateBidder x = none) →
      ((b.ID ∈ pre.map fun x => x.ID) →
        validateAuctionData na = some (.new "duplicate bidder ID detected")) ∧
      ((b.ID ∉ pre.map fun x => x.ID) → ∀ e, validateBidder b = some e →
        validateAuctionData na =
          some (.wrap "invalid bidder data for bidder ID" e))) := by
  refine ⟨?_, ?_, ?_⟩
  · unfold validateAuctionData
    by_cases hlen : na.Bidders.length ≤ 1
    · rw [if_pos hlen]
      exact iff_of_true rfl hlen
    · rw [if_neg hlen]
      exact iff_of_false (validateLoop_ne_insufficient na.Bidders []) hlen
  · intro hlen
    have hlen1 : ¬(na.Bidders.length ≤ 1) := by omega
    unfold validateAuctionData
    rw [if_neg hlen1, validateLoop_none_iff na.Bidders []]
    constructor
    · rintro ⟨h1, h2⟩
      exact ⟨h1, fun b hb => (h2 b hb).2⟩
    · rintro ⟨h1, h2⟩
      exact ⟨h1, fun b hb => ⟨List.not_mem_nil _, h2 b hb⟩⟩
  · intro pre b post hsplit hlen hnd hvalid
    have hlen1 : ¬(na.Bidders.length ≤ 1) := by omega
    have hvalid' : ∀ x ∈ pre, x.ID ∉ ([] : List Nat) ∧ validateBidder x = none :=
      fun x hx => ⟨List.not_mem_nil _, hvalid x hx⟩
    have hstep : validateAuctionData na =
        validateLoop (b :: post) ((pre.map fun x => x.ID).reverse ++ []) := by
      unfold validateAuctionData
      rw [if_neg hlen1, hsplit, validateLoop_append pre (b :: post) [] hnd hvalid']
    rw [List.append_nil] at hstep
    constructor
    · intro hmem
      rw [hstep]
      exact validateLoop_cons_dup b post _ (List.mem_reverse.mpr hmem)
    · intro hnmem e hv
      rw [hstep]
      exact validateLoop_cons_invalid b post _
        (fun hm => hnmem (List.mem_reverse.mp hm)) hv

theorem C5_amended_witness :
    validateAuctionData C5Wcfg = some (.new "duplicate bidder ID detected") ∧
    ¬(C5Wcfg.Bidders.length ≤ 1) := by
  have h := ((C5_amended_validation C5Wcfg).2.2
    [⟨1, "X", 1, 2, 1, 1, 0⟩] ⟨1, "Z", 1, 2, 1, 1, 0⟩ [⟨2, "Y", 1, 2, 1, 1, 0⟩]
    rfl (by decide) (by decide) (by decide)).1 (by decide)
  exact ⟨h, by decide⟩

/-- C9: concurrent `PlaceBid` calls against pairwise disjoint bidders,
modelled at the store's lock granularity (each `GetBidder` read and each
`UpdateBidder` write is one atomic step, the local validation in between
bundled with the write), lose no update and create no bound violation: under
any schedule, once a thread has completed its calls, its bidder's record is
exactly the sequential application of its bids (`entryBid`, which by the
last conjunct is precisely the store effect of one sequential `PlaceBid`),
and a bidder that started with `CurrentBid ≤ MaxBid` still satisfies it. -/
theorem C9_concurrent_disjoint_bidders {n : Nat} (c : Conc n)
    (sched : List (Fin n)) (i : Fin n) (bid : Nat) (nows : List Nat)
    (hthread : c.threads i = ⟨bid, nows, none⟩)
    (hdist : ∀ i1 j1 : Fin n, i1 ≠ j1 →
      (c.threads i1).bidderID ≠ (c.threads j1).bidderID)
    (hstart : ∀ j : Fin n, (c.threads j).holding = none)
    (hfin : (concRun c sched).threads i = ⟨bid, [], none⟩) :
    entryOf (concRun c sched).store bid =
      nows.foldl entryBid (entryOf c.store bid) ∧
    (∀ b0, entryOf c.store bid = some b0 → b0.CurrentBid ≤ b0.MaxBid →
      ∀ b1, entryOf (concRun c sched).store bid = some b1 →
        b1.CurrentBid ≤ b1.MaxBid) ∧
    (∀ (a : Auction) (id now : Nat),
      entryOf (a.PlaceBid id now).2.storer id =
        entryBid (entryOf a.storer id) now) := by
  have hwf : ∀ j : Fin n, ∀ b now, (c.threads j).holding = some (b, now) →
      b.ID = (c.threads j).bidderID := by
    intro j b now h
    rw [hstart j] at h
    cases h
  have hmain := concRun_localView sched c hdist hwf i
  rw [hthread] at hmain
  dsimp only at hmain
  have hsnd := congrArg Prod.snd hmain
  dsimp only at hsnd
  have h2 : (localStep^[sched.count i]
      (entryOf c.store bid, (⟨bid, nows, none⟩ : ThreadState))).2 =
      (⟨bid, [], none⟩ : ThreadState) := by
    rw [← hsnd]
    exact hfin
  have h1 := localIter_finished nows (sched.count i) (entryOf c.store bid) bid h2
  have hfst := congrArg Prod.fst hmain
  dsimp only at hfst
  refine ⟨?_, ?_, entryBid_placeBid⟩
  · rw [hfst]
    exact h1
  · intro b0 hb0 hle b1 hb1
    rw [hfst, h1] at hb1
    refine entryBid_foldl_le nows (entryOf c.store bid) ?_ b1 hb1
    intro b hb
    rw [hb0] at hb
    cases hb
    exact hle

theorem C9_witness :
    entryOf (concRun C9conc C9sched).store 1 =
      ([5] : List Nat).foldl entryBid (entryOf C9conc.store 1) :=
  (C9_concurrent_disjoint_bidders C9conc C9sched 0 1 [5]
    rfl (by decide) (by decide) rfl).1
